import Mathlib

/-!
Shallow embedding of the `channels` library (package `channels`): stream
operators built on one shared pull loop (`receiveLoop`) and a cancellable
push (`trySend`).

A blocking read (`tryRead` / the `select` inside `receiveLoop`) has three
possible outcomes, modelled by `RecvEvent`: a value arrives, the channel is
closed, or the context is cancelled.  A run of a worker is determined by the
finite trace of outcomes its reads observe, so each operator is embedded as a
function of such a trace.  `trySend` is modelled as always succeeding: the
sequence-level claims quantify over input sequences that are fully drained by
a consumer with no cancellation in flight, which is exactly the situation in
which the `select` inside `trySend` delivers the value.
-/

namespace Channels

/-- Outcome of one blocking read on the input channel: a value was received,
the channel was reported closed (`ok = false`), or the context was done. -/
inductive RecvEvent (T : Type) where
  | value (v : T)
  | closed
  | ctxDone

/-- Payload of a value event, if any. -/
def RecvEvent.value? {T : Type} : RecvEvent T → Option T
  | .value v => some v
  | .closed => none
  | .ctxDone => none

/-- Event trace of a producer that emits the values of `xs` in order and then
closes the channel, with no cancellation. -/
def ofList {T : Type} (xs : List T) : List (RecvEvent T) :=
  xs.map RecvEvent.value ++ [RecvEvent.closed]

/-- `trySend` from `channels.go`: race "buffer accepts the value" against
"context done".  With no cancellation and a draining consumer the send always
succeeds, so the output list grows and the result is `true`. -/
def trySend {T : Type} (out : List T) (v : T) : List T × Bool :=
  (out ++ [v], true)

/-- `receiveLoop` from the shared pull-loop helper: repeatedly `select`
between the next read outcome and cancellation; on a received value invoke the
continuation `f`; stop when the channel is closed, the context fires, or `f`
returns `false` (`loop = ok && f(v)`).  The continuation is stateful because
the Go continuations are closures mutating captured variables.

The result is `(final state, values f was invoked on, unread events,
stopped)`, where `stopped = false` means the trace ran out while the loop was
still prepared to read again. -/
def receiveLoop {T σ : Type} (f : σ → T → σ × Bool) :
    List (RecvEvent T) → σ → σ × List T × List (RecvEvent T) × Bool
  | [], s => (s, [], [], false)
  | .closed :: rest, s => (s, [], rest, true)
  | .ctxDone :: rest, s => (s, [], rest, true)
  | .value v :: rest, s =>
    match f s v with
    | (s', true) =>
      match receiveLoop f rest s' with
      | (s'', inv, left, st) => (s'', v :: inv, left, st)
    | (s', false) => (s', [v], rest, true)

/-- Continuation of `ToSlice`: `result = append(result, v); return true`. -/
def toSliceStep {T : Type} : List T → T → List T × Bool :=
  fun result v => (result ++ [v], true)

/-- `ToSlice` over an event trace: drain the channel into a list, stopping on
close or cancellation. -/
def ToSlice {T : Type} (events : List (RecvEvent T)) : List T :=
  (receiveLoop toSliceStep events []).1

/-- Continuation of `Take` (from `take.go`): `if !trySend { return false };
length++; return length < maxLen`.  State is `(out, length)`. -/
def takeStep {T : Type} (n : Nat) : List T × Nat → T → (List T × Nat) × Bool :=
  fun st v =>
    let (out', ok) := trySend st.1 v
    if !ok then ((out', st.2), false)
    else ((out', st.2 + 1), decide (st.2 + 1 < n))

/-- `Take` (from `take.go`) over an event trace: returns the sent values and
the unread remainder of the trace.  `n = 0` closes the output before any
read. -/
def TakeE {T : Type} (n : Nat) (events : List (RecvEvent T)) :
    List T × List (RecvEvent T) :=
  if n = 0 then ([], events)
  else
    let r := receiveLoop (takeStep n) events ([], 0)
    (r.1.1, r.2.2.1)

/-- Continuation of `Drop` (from `drop.go`): `length++; if length < maxLen+1
{ return true }; if !trySend { return false }; return true`. -/
def dropStep {T : Type} (n : Nat) : List T × Nat → T → (List T × Nat) × Bool :=
  fun st v =>
    let length' := st.2 + 1
    if length' < n + 1 then ((st.1, length'), true)
    else
      let (out', ok) := trySend st.1 v
      if !ok then ((out', length'), false)
      else ((out', length'), true)

/-- `Drop` (from `drop.go`) over an event trace: the sent values. -/
def DropE {T : Type} (n : Nat) (events : List (RecvEvent T)) : List T :=
  (receiveLoop (dropStep n) events ([], 0)).1.1

/-- Continuation of `TakeWhile` (from `take.go`): `if !f(v) { return false };
return trySend(ctx, out, v)`. -/
def takeWhileStep {T : Type} (f : T → Bool) : List T → T → List T × Bool :=
  fun out v =>
    if !(f v) then (out, false)
    else trySend out v

/-- `TakeWhile` (from `take.go`) over an event trace: sent values and unread
remainder. -/
def TakeWhileE {T : Type} (f : T → Bool) (events : List (RecvEvent T)) :
    List T × List (RecvEvent T) :=
  let r := receiveLoop (takeWhileStep f) events []
  (r.1, r.2.2.1)

/-- `TakeUntil` (from `take.go`): literally `TakeWhile` of the negated
predicate. -/
def TakeUntilE {T : Type} (f : T → Bool) (events : List (RecvEvent T)) :
    List T × List (RecvEvent T) :=
  TakeWhileE (fun v => !(f v)) events

/-- Continuation of `DropWhile` (from `drop.go`): `if dropping && f(v)
{ return true }; dropping = false; return trySend(ctx, out, v)`.  State is
`(out, dropping, evals)` where `evals` instruments the short-circuit of
`dropping && f(v)`: it records exactly the values `f` is applied to. -/
def dropWhileStep {T : Type} (f : T → Bool) :
    List T × Bool × List T → T → (List T × Bool × List T) × Bool :=
  fun st v =>
    if st.2.1 then
      if f v then ((st.1, true, st.2.2 ++ [v]), true)
      else
        let (out', ok) := trySend st.1 v
        ((out', false, st.2.2 ++ [v]), ok)
    else
      let (out', ok) := trySend st.1 v
      ((out', false, st.2.2), ok)

/-- `DropWhile` (from `drop.go`) over an event trace: sent values, and the
values the predicate was evaluated on. -/
def DropWhileE {T : Type} (f : T → Bool) (events : List (RecvEvent T)) :
    List T × List T :=
  let r := receiveLoop (dropWhileStep f) events ([], true, [])
  (r.1.1, r.1.2.2)

/-- `DropUntil` (from `drop.go`): literally `DropWhile` of the negated
predicate. -/
def DropUntilE {T : Type} (f : T → Bool) (events : List (RecvEvent T)) :
    List T × List T :=
  DropWhileE (fun v => !(f v)) events

/-- Continuation of `Filter` (from `channels.go`): `if predicate(v) { return
trySend(ctx, out, v) }; return true`. -/
def filterStep {T : Type} (predicate : T → Bool) : List T → T → List T × Bool :=
  fun out v =>
    if predicate v then trySend out v
    else (out, true)

/-- `Filter` (from `channels.go`) over an event trace: the sent values. -/
def FilterE {T : Type} (predicate : T → Bool) (events : List (RecvEvent T)) :
    List T :=
  (receiveLoop (filterStep predicate) events []).1

/-- Continuation of `FilterMap` (from `map.go`): `if outValue, ok := f(v); ok
{ return trySend(ctx, out, outValue) }; return true`. -/
def filterMapStep {T U : Type} (f : T → U × Bool) : List U → T → List U × Bool :=
  fun out v =>
    let (outValue, ok) := f v
    if ok then trySend out outValue
    else (out, true)

/-- `FilterMap` (from `map.go`) over an event trace: the sent values. -/
def FilterMapE {T U : Type} (f : T → U × Bool) (events : List (RecvEvent T)) :
    List U :=
  (receiveLoop (filterMapStep f) events []).1

/-- `Map` (from `map.go`): literally `FilterMap` of `v ↦ (f v, true)`. -/
def MapE {T U : Type} (f : T → U) (events : List (RecvEvent T)) : List U :=
  FilterMapE (fun v => (f v, true)) events

/-- Continuation of `MapError` (from `map.go`): `if outValue, err := f(v);
err != nil { return trySend(ctx, errs, err) } else { return trySend(ctx, out,
outValue) }`.  The Go `error` result is modelled by `Option E` (`none` =
`nil`). -/
def mapErrorStep {T U E : Type} (f : T → U × Option E) :
    List U × List E → T → (List U × List E) × Bool :=
  fun st v =>
    match f v with
    | (_, some err) =>
      let (errs', ok) := trySend st.2 err
      ((st.1, errs'), ok)
    | (outValue, none) =>
      let (out', ok) := trySend st.1 outValue
      ((out', st.2), ok)

/-- `MapError` (from `map.go`) over an event trace: the two output streams
(value stream, error stream). -/
def MapErrorE {T U E : Type} (f : T → U × Option E)
    (events : List (RecvEvent T)) : List U × List E :=
  (receiveLoop (mapErrorStep f) events ([], [])).1

/-- Output sequence of `ToSlice` when draining a channel that emits `xs` then
closes, with no cancellation. -/
def ToSliceRun {T : Type} (xs : List T) : List T :=
  ToSlice (ofList xs)

/-- Output sequence of `Take n` on the finite input `xs`. -/
def TakeRun {T : Type} (n : Nat) (xs : List T) : List T :=
  (TakeE n (ofList xs)).1

/-- Output sequence of `Drop n` on the finite input `xs`. -/
def DropRun {T : Type} (n : Nat) (xs : List T) : List T :=
  DropE n (ofList xs)

/-- Output sequence of `TakeWhile f` on the finite input `xs`. -/
def TakeWhileRun {T : Type} (f : T → Bool) (xs : List T) : List T :=
  (TakeWhileE f (ofList xs)).1

/-- Output sequence of `TakeUntil f` on the finite input `xs`. -/
def TakeUntilRun {T : Type} (f : T → Bool) (xs : List T) : List T :=
  (TakeUntilE f (ofList xs)).1

/-- Output sequence of `DropWhile f` on the finite input `xs`. -/
def DropWhileRun {T : Type} (f : T → Bool) (xs : List T) : List T :=
  (DropWhileE f (ofList xs)).1

/-- Output sequence of `DropUntil f` on the finite input `xs`. -/
def DropUntilRun {T : Type} (f : T → Bool) (xs : List T) : List T :=
  (DropUntilE f (ofList xs)).1

/-- Output sequence of `Filter predicate` on the finite input `xs`. -/
def FilterRun {T : Type} (predicate : T → Bool) (xs : List T) : List T :=
  FilterE predicate (ofList xs)

/-- Output sequence of `FilterMap f` on the finite input `xs`. -/
def FilterMapRun {T U : Type} (f : T → U × Bool) (xs : List T) : List U :=
  FilterMapE f (ofList xs)

/-- Output sequence of `Map f` on the finite input `xs`. -/
def MapRun {T U : Type} (f : T → U) (xs : List T) : List U :=
  MapE f (ofList xs)

/-- Output sequences of `MapError f` on the finite input `xs`. -/
def MapErrorRun {T U E : Type} (f : T → U × Option E) (xs : List T) :
    List U × List E :=
  MapErrorE f (ofList xs)

/-- A channel as observed by a consumer: its buffer capacity (the `cap`
argument of `make(chan T, cap)`) together with the sequence of values it
delivers before closing. -/
structure Chan (T : Type) where
  cap : Nat
  values : List T

/-- `Take` at the channel level: output capacity `min(maxLen, cap(in))` as in
`take.go`, contents as produced by its worker. -/
def Take {T : Type} (ch : Chan T) (n : Nat) : Chan T :=
  ⟨min n ch.cap, TakeRun n ch.values⟩

/-- `Drop` at the channel level: output capacity `min(maxLen, cap(in))` as in
`drop.go`, contents as produced by its worker. -/
def Drop {T : Type} (ch : Chan T) (n : Nat) : Chan T :=
  ⟨min n ch.cap, DropRun n ch.values⟩

/-- `TakeWhile` at the channel level: output capacity `cap(in)`. -/
def TakeWhile {T : Type} (f : T → Bool) (ch : Chan T) : Chan T :=
  ⟨ch.cap, TakeWhileRun f ch.values⟩

/-- `TakeUntil` at the channel level: delegates to `TakeWhile` as in
`take.go`. -/
def TakeUntil {T : Type} (f : T → Bool) (ch : Chan T) : Chan T :=
  TakeWhile (fun v => !(f v)) ch

/-- `DropWhile` at the channel level: output capacity `cap(in)`. -/
def DropWhile {T : Type} (f : T → Bool) (ch : Chan T) : Chan T :=
  ⟨ch.cap, DropWhileRun f ch.values⟩

/-- `DropUntil` at the channel level: delegates to `DropWhile` as in
`drop.go`. -/
def DropUntil {T : Type} (f : T → Bool) (ch : Chan T) : Chan T :=
  DropWhile (fun v => !(f v)) ch

/-- `FilterMap` at the channel level: output capacity `cap(in)`. -/
def FilterMap {T U : Type} (f : T → U × Bool) (ch : Chan T) : Chan U :=
  ⟨ch.cap, FilterMapRun f ch.values⟩

/-- `Map` at the channel level: literally `FilterMap` of `v ↦ (f v, true)` as
in `map.go`. -/
def Map {T U : Type} (f : T → U) (ch : Chan T) : Chan U :=
  FilterMap (fun v => (f v, true)) ch

/-- `Filter` at the channel level: output capacity `cap(in)`. -/
def Filter {T : Type} (predicate : T → Bool) (ch : Chan T) : Chan T :=
  ⟨ch.cap, FilterRun predicate ch.values⟩

/-- `MapError` at the channel level: value stream of capacity `cap(in)`,
error stream of capacity 0. -/
def MapError {T U E : Type} (f : T → U × Option E) (ch : Chan T) :
    Chan U × Chan E :=
  (⟨ch.cap, (MapErrorRun f ch.values).1⟩, ⟨0, (MapErrorRun f ch.values).2⟩)

/-- The trace of a producer that emits `x :: xs` starts with the value `x`. -/
theorem ofList_cons {T : Type} (x : T) (xs : List T) :
    ofList (x :: xs) = RecvEvent.value x :: ofList xs := rfl

/-- The trace of an empty producer is a single close event. -/
theorem ofList_nil {T : Type} : ofList ([] : List T) = [RecvEvent.closed] := rfl

/-- Unfolding `receiveLoop` on a value event: invoke the continuation, then
either keep looping on its new state or stop, keeping the rest unread. -/
theorem receiveLoop_cons_value {T σ : Type} (f : σ → T → σ × Bool) (v : T)
    (rest : List (RecvEvent T)) (s : σ) :
    receiveLoop f (RecvEvent.value v :: rest) s =
      if (f s v).2 = true then
        ((receiveLoop f rest (f s v).1).1,
         v :: (receiveLoop f rest (f s v).1).2.1,
         (receiveLoop f rest (f s v).1).2.2.1,
         (receiveLoop f rest (f s v).1).2.2.2)
      else ((f s v).1, [v], rest, true) := by
  rcases hfv : f s v with ⟨s', b⟩
  cases b with
  | false => simp [receiveLoop, hfv]
  | true =>
    rcases hr : receiveLoop f rest s' with ⟨a, i, l, st⟩
    simp [receiveLoop, hfv, hr]

/-- Running `ToSlice`'s continuation over a finite producer appends every
produced value to the accumulator and consumes the whole trace. -/
theorem toSlice_go {T : Type} (xs : List T) (acc : List T) :
    receiveLoop toSliceStep (ofList xs) acc = (acc ++ xs, xs, [], true) := by
  induction xs generalizing acc with
  | nil => simp [ofList_nil, receiveLoop]
  | cons x xs ih =>
    rw [ofList_cons, receiveLoop_cons_value]
    simp [toSliceStep, ih]

/-- `ToSlice` returns exactly the values the producer emits, in order. -/
theorem ToSliceRun_eq {T : Type} (xs : List T) : ToSliceRun xs = xs := by
  simp [ToSliceRun, ToSlice, toSlice_go]

/-- Generalized run of `Take`'s worker: with `c` values already forwarded out
of `n`, the worker forwards the next `n - c` available values. -/
theorem take_go {T : Type} (n : Nat) (xs : List T) (acc : List T) (c : Nat)
    (h : c < n) :
    (receiveLoop (takeStep n) (ofList xs) (acc, c)).1.1 =
      acc ++ xs.take (n - c) := by
  induction xs generalizing acc c with
  | nil => simp [ofList_nil, receiveLoop]
  | cons x xs ih =>
    rw [ofList_cons, receiveLoop_cons_value]
    by_cases hc : c + 1 < n
    · have h2 : (takeStep n (acc, c) x).2 = true := by
        simp [takeStep, trySend, hc]
      have h1 : (takeStep n (acc, c) x).1 = (acc ++ [x], c + 1) := by
        simp [takeStep, trySend]
      rw [if_pos h2, h1]
      have hrec := ih (acc ++ [x]) (c + 1) hc
      simp only [hrec]
      have hsub : n - c = (n - (c + 1)) + 1 := by omega
      simp [hsub]
    · have h2 : (takeStep n (acc, c) x).2 = false := by
        simp [takeStep, trySend, hc]
      rw [if_neg (by simp [h2])]
      have h1 : (takeStep n (acc, c) x).1 = (acc ++ [x], c + 1) := by
        simp [takeStep, trySend]
      rw [h1]
      have hsub : n - c = 1 := by omega
      simp [hsub]

/-- `Take n` forwards exactly the first `n` values of a finite input (all of
them when fewer are produced). -/
theorem TakeRun_eq {T : Type} (n : Nat) (xs : List T) :
    TakeRun n xs = xs.take n := by
  rcases Nat.eq_zero_or_pos n with hn | hn
  · simp [TakeRun, TakeE, hn]
  · have hne : n ≠ 0 := Nat.pos_iff_ne_zero.mp hn
    simp only [TakeRun, TakeE, if_neg hne]
    have := take_go n xs [] 0 hn
    simpa using this

/-- `Take 0` performs no reads at all: the entire trace is left unread. -/
theorem TakeE_zero {T : Type} (events : List (RecvEvent T)) :
    TakeE 0 events = ([], events) := by
  simp [TakeE]

/-- Generalized run of `Drop`'s worker: with `c` values already counted out of
`n`, the worker skips the next `n - c` values and forwards the rest. -/
theorem drop_go {T : Type} (n : Nat) (xs : List T) (acc : List T) (c : Nat) :
    (receiveLoop (dropStep n) (ofList xs) (acc, c)).1.1 =
      acc ++ xs.drop (n - c) := by
  induction xs generalizing acc c with
  | nil => simp [ofList_nil, receiveLoop]
  | cons x xs ih =>
    rw [ofList_cons, receiveLoop_cons_value]
    by_cases hc : c + 1 < n + 1
    · have h2 : (dropStep n (acc, c) x).2 = true := by
        simp [dropStep, hc]
      have h1 : (dropStep n (acc, c) x).1 = (acc, c + 1) := by
        simp [dropStep, hc]
      rw [if_pos h2, h1, ih]
      have hsub : n - c = (n - (c + 1)) + 1 := by omega
      simp [hsub]
    · have h2 : (dropStep n (acc, c) x).2 = true := by
        simp [dropStep, hc, trySend]
      have h1 : (dropStep n (acc, c) x).1 = (acc ++ [x], c + 1) := by
        simp [dropStep, hc, trySend]
      rw [if_pos h2, h1, ih]
      have hnc : n - c = 0 := by omega
      have hnc' : n - (c + 1) = 0 := by omega
      simp [hnc, hnc']

/-- `Drop n` discards exactly the first `n` values of a finite input and
forwards all subsequent ones. -/
theorem DropRun_eq {T : Type} (n : Nat) (xs : List T) :
    DropRun n xs = xs.drop n := by
  have := drop_go n xs [] 0
  simpa [DropRun, DropE] using this

/-- Full run of `TakeWhile`'s worker on a finite producer: it forwards the
longest prefix satisfying `f`, reads exactly one event past that prefix (the
failing value, or the close when every value satisfies `f`), and leaves
everything after that unread. -/
theorem takeWhile_go {T : Type} (f : T → Bool) (xs : List T) (acc : List T) :
    receiveLoop (takeWhileStep f) (ofList xs) acc =
      (acc ++ xs.takeWhile f,
       xs.take ((xs.takeWhile f).length + 1),
       (xs.drop ((xs.takeWhile f).length + 1)).map RecvEvent.value ++
         (if (xs.takeWhile f).length < xs.length then [RecvEvent.closed]
          else []),
       true) := by
  induction xs generalizing acc with
  | nil => simp [ofList_nil, receiveLoop]
  | cons x xs ih =>
    rw [ofList_cons, receiveLoop_cons_value]
    by_cases hf : f x = true
    · have h2 : (takeWhileStep f acc x).2 = true := by
        simp [takeWhileStep, hf, trySend]
      have h1 : (takeWhileStep f acc x).1 = acc ++ [x] := by
        simp [takeWhileStep, hf, trySend]
      rw [if_pos h2, h1, ih]
      simp [List.takeWhile_cons, hf, Nat.succ_lt_succ_iff]
    · have hfx : f x = false := by simpa using hf
      have h2 : (takeWhileStep f acc x).2 = false := by
        simp [takeWhileStep, hfx]
      rw [if_neg (by simp [h2])]
      have h1 : (takeWhileStep f acc x).1 = acc := by
        simp [takeWhileStep, hfx]
      rw [h1]
      simp [List.takeWhile_cons, hfx, ofList]

/-- `TakeWhile f` forwards exactly the longest prefix of the input satisfying
`f`. -/
theorem TakeWhileRun_eq {T : Type} (f : T → Bool) (xs : List T) :
    TakeWhileRun f xs = xs.takeWhile f := by
  simp [TakeWhileRun, TakeWhileE, takeWhile_go]

/-- The events `TakeWhile f` leaves unread: everything after the first value
falsifying `f` (nothing is left when all values satisfy `f`, since the worker
then consumes the close event). -/
theorem TakeWhileE_left {T : Type} (f : T → Bool) (xs : List T) :
    (TakeWhileE f (ofList xs)).2 =
      (xs.drop ((xs.takeWhile f).length + 1)).map RecvEvent.value ++
        (if (xs.takeWhile f).length < xs.length then [RecvEvent.closed]
         else []) := by
  simp [TakeWhileE, takeWhile_go]

/-- Run of `DropWhile`'s worker after the flip: every remaining value is
forwarded and the predicate is never evaluated (the `evals` instrumentation is
unchanged). -/
theorem dropWhile_go_stopped {T : Type} (f : T → Bool) (xs : List T)
    (acc evals : List T) :
    receiveLoop (dropWhileStep f) (ofList xs) (acc, false, evals) =
      ((acc ++ xs, false, evals), xs, [], true) := by
  induction xs generalizing acc with
  | nil => simp [ofList_nil, receiveLoop]
  | cons x xs ih =>
    rw [ofList_cons, receiveLoop_cons_value]
    have h2 : (dropWhileStep f (acc, false, evals) x).2 = true := by
      simp [dropWhileStep, trySend]
    have h1 : (dropWhileStep f (acc, false, evals) x).1 =
        (acc ++ [x], false, evals) := by
      simp [dropWhileStep, trySend]
    rw [if_pos h2, h1, ih]
    simp

/-- Run of `DropWhile`'s worker while still dropping: the output gains the
input with its longest `f`-prefix removed, and `f` is evaluated on exactly
that prefix plus the first falsifying value. -/
theorem dropWhile_go {T : Type} (f : T → Bool) (xs : List T)
    (acc evals : List T) :
    (receiveLoop (dropWhileStep f) (ofList xs) (acc, true, evals)).1.1 =
        acc ++ xs.dropWhile f ∧
      (receiveLoop (dropWhileStep f) (ofList xs) (acc, true, evals)).1.2.2 =
        evals ++ xs.take ((xs.takeWhile f).length + 1) := by
  induction xs generalizing acc evals with
  | nil => simp [ofList_nil, receiveLoop]
  | cons x xs ih =>
    rw [ofList_cons, receiveLoop_cons_value]
    by_cases hf : f x = true
    · have h2 : (dropWhileStep f (acc, true, evals) x).2 = true := by
        simp [dropWhileStep, hf]
      have h1 : (dropWhileStep f (acc, true, evals) x).1 =
          (acc, true, evals ++ [x]) := by
        simp [dropWhileStep, hf]
      rw [if_pos h2, h1]
      obtain ⟨ih1, ih2⟩ := ih acc (evals ++ [x])
      refine ⟨?_, ?_⟩
      · simpa [List.dropWhile_cons, hf] using ih1
      · rw [ih2]
        simp [List.takeWhile_cons, hf]
    · have hfx : f x = false := by simpa using hf
      have h2 : (dropWhileStep f (acc, true, evals) x).2 = true := by
        simp [dropWhileStep, hfx, trySend]
      have h1 : (dropWhileStep f (acc, true, evals) x).1 =
          (acc ++ [x], false, evals ++ [x]) := by
        simp [dropWhileStep, hfx, trySend]
      rw [if_pos h2, h1, dropWhile_go_stopped]
      simp [List.dropWhile_cons, List.takeWhile_cons, hfx]

/-- `DropWhile f` forwards exactly the input with its longest `f`-prefix
removed: the first falsifying value and everything after it. -/
theorem DropWhileRun_eq {T : Type} (f : T → Bool) (xs : List T) :
    DropWhileRun f xs = xs.dropWhile f := by
  have := (dropWhile_go f xs [] []).1
  simpa [DropWhileRun, DropWhileE] using this

/-- The values `DropWhile f` evaluates its predicate on: the dropped prefix
plus the first falsifying value, and never anything after the flip. -/
theorem DropWhileE_evals {T : Type} (f : T → Bool) (xs : List T) :
    (DropWhileE f (ofList xs)).2 =
      xs.take ((xs.takeWhile f).length + 1) := by
  have := (dropWhile_go f xs [] []).2
  simpa [DropWhileE] using this

/-- Run of `Filter`'s worker on a finite producer: the output gains exactly
the values satisfying the predicate. -/
theorem filter_go {T : Type} (p : T → Bool) (xs : List T) (acc : List T) :
    (receiveLoop (filterStep p) (ofList xs) acc).1 = acc ++ xs.filter p := by
  induction xs generalizing acc with
  | nil => simp [ofList_nil, receiveLoop]
  | cons x xs ih =>
    rw [ofList_cons, receiveLoop_cons_value]
    by_cases hp : p x = true
    · have h2 : (filterStep p acc x).2 = true := by
        simp [filterStep, hp, trySend]
      have h1 : (filterStep p acc x).1 = acc ++ [x] := by
        simp [filterStep, hp, trySend]
      rw [if_pos h2, h1, ih]
      simp [List.filter_cons, hp]
    · have hpx : p x = false := by simpa using hp
      have h2 : (filterStep p acc x).2 = true := by
        simp [filterStep, hpx]
      have h1 : (filterStep p acc x).1 = acc := by
        simp [filterStep, hpx]
      rw [if_pos h2, h1, ih]
      simp [List.filter_cons, hpx]

/-- `Filter p` forwards exactly the values satisfying `p`, in order. -/
theorem FilterRun_eq {T : Type} (p : T → Bool) (xs : List T) :
    FilterRun p xs = xs.filter p := by
  simp [FilterRun, FilterE, filter_go]

/-- Run of `FilterMap`'s worker on a finite producer: the output gains the
transforms of exactly the values the function keeps. -/
theorem filterMap_go {T U : Type} (f : T → U × Bool) (xs : List T)
    (acc : List U) :
    (receiveLoop (filterMapStep f) (ofList xs) acc).1 =
      acc ++ (xs.filter (fun v => (f v).2)).map (fun v => (f v).1) := by
  induction xs generalizing acc with
  | nil => simp [ofList_nil, receiveLoop]
  | cons x xs ih =>
    rw [ofList_cons, receiveLoop_cons_value]
    rcases hfx : f x with ⟨u, ok⟩
    cases ok with
    | true =>
      have h2 : (filterMapStep f acc x).2 = true := by
        simp [filterMapStep, hfx, trySend]
      have h1 : (filterMapStep f acc x).1 = acc ++ [u] := by
        simp [filterMapStep, hfx, trySend]
      rw [if_pos h2, h1, ih]
      simp [List.filter_cons, hfx]
    | false =>
      have h2 : (filterMapStep f acc x).2 = true := by
        simp [filterMapStep, hfx]
      have h1 : (filterMapStep f acc x).1 = acc := by
        simp [filterMapStep, hfx]
      rw [if_pos h2, h1, ih]
      simp [List.filter_cons, hfx]

/-- `FilterMap f` forwards `(f v).1` for exactly the values `v` with
`(f v).2 = true`, in input order. -/
theorem FilterMapRun_eq {T U : Type} (f : T → U × Bool) (xs : List T) :
    FilterMapRun f xs =
      (xs.filter (fun v => (f v).2)).map (fun v => (f v).1) := by
  simp [FilterMapRun, FilterMapE, filterMap_go]

/-- Run of `MapError`'s worker on a finite producer: values whose transform
reports no error go to the value stream, the errors go to the error stream. -/
theorem mapError_go {T U E : Type} (f : T → U × Option E) (xs : List T)
    (accOut : List U) (accErr : List E) :
    (receiveLoop (mapErrorStep f) (ofList xs) (accOut, accErr)).1 =
      (accOut ++
         (xs.filter (fun v => ((f v).2).isNone)).map (fun v => (f v).1),
       accErr ++ xs.filterMap (fun v => (f v).2)) := by
  induction xs generalizing accOut accErr with
  | nil => simp [ofList_nil, receiveLoop]
  | cons x xs ih =>
    rw [ofList_cons, receiveLoop_cons_value]
    rcases hfx : f x with ⟨u, e⟩
    cases e with
    | none =>
      have h2 : (mapErrorStep f (accOut, accErr) x).2 = true := by
        simp [mapErrorStep, hfx, trySend]
      have h1 : (mapErrorStep f (accOut, accErr) x).1 =
          (accOut ++ [u], accErr) := by
        simp [mapErrorStep, hfx, trySend]
      rw [if_pos h2, h1, ih]
      simp [List.filter_cons, List.filterMap_cons, hfx]
    | some err =>
      have h2 : (mapErrorStep f (accOut, accErr) x).2 = true := by
        simp [mapErrorStep, hfx, trySend]
      have h1 : (mapErrorStep f (accOut, accErr) x).1 =
          (accOut, accErr ++ [err]) := by
        simp [mapErrorStep, hfx, trySend]
      rw [if_pos h2, h1, ih]
      simp [List.filter_cons, List.filterMap_cons, hfx]

/-- The two streams of `MapError f`: transformed error-free values in order,
and the errors in order. -/
theorem MapErrorRun_eq {T U E : Type} (f : T → U × Option E) (xs : List T) :
    MapErrorRun f xs =
      ((xs.filter (fun v => ((f v).2).isNone)).map (fun v => (f v).1),
       xs.filterMap (fun v => (f v).2)) := by
  simp [MapErrorRun, MapErrorE, mapError_go]

/-- Every input contributes to exactly one of the two streams of `MapError`:
the lengths of the value and error selections sum to the input length. -/
theorem mapError_length {T U E : Type} (f : T → U × Option E) (xs : List T) :
    (xs.filter (fun v => ((f v).2).isNone)).length +
      (xs.filterMap (fun v => (f v).2)).length = xs.length := by
  induction xs with
  | nil => simp
  | cons x xs ih =>
    rcases hfx : f x with ⟨u, e⟩
    cases e with
    | none =>
      simp only [List.filter_cons, List.filterMap_cons, hfx]
      simp only [Option.isNone_none]
      simp [← ih, hfx]
      omega
    | some err =>
      simp only [List.filter_cons, List.filterMap_cons, hfx]
      simp only [Option.isNone_some]
      simp [← ih, hfx]
      omega

/-- `receiveLoop` consumes some prefix of its event trace, leaves the rest
unread, and invokes its continuation on exactly the payloads of the value
events in that prefix (so never on a close or cancellation event). -/
theorem receiveLoop_consumed {T σ : Type} (f : σ → T → σ × Bool)
    (events : List (RecvEvent T)) (s : σ) :
    ∃ k, k ≤ events.length ∧
      (receiveLoop f events s).2.2.1 = events.drop k ∧
      (receiveLoop f events s).2.1 =
        (events.take k).filterMap RecvEvent.value? := by
  induction events generalizing s with
  | nil => exact ⟨0, by simp [receiveLoop]⟩
  | cons e rest ih =>
    cases e with
    | closed =>
      exact ⟨1, by simp [receiveLoop, RecvEvent.value?]⟩
    | ctxDone =>
      exact ⟨1, by simp [receiveLoop, RecvEvent.value?]⟩
    | value v =>
      rcases hfv : f s v with ⟨s', b⟩
      cases b with
      | false =>
        exact ⟨1, by simp [receiveLoop_cons_value, hfv, RecvEvent.value?]⟩
      | true =>
        obtain ⟨k, hk, hleft, hinv⟩ := ih s'
        refine ⟨k + 1, by simpa using Nat.succ_le_succ hk, ?_, ?_⟩
        · simp [receiveLoop_cons_value, hfv, hleft]
        · simp [receiveLoop_cons_value, hfv, hinv, RecvEvent.value?]

/-- Extending the event trace of a `receiveLoop` run: a stopped run (the
channel closed, the context fired, or the continuation returned `false`)
never reads the extra events and never invokes the continuation again; a run
that merely exhausted its trace continues into the extension. -/
theorem receiveLoop_append {T σ : Type} (f : σ → T → σ × Bool)
    (events extra : List (RecvEvent T)) (s : σ) :
    receiveLoop f (events ++ extra) s =
      if (receiveLoop f events s).2.2.2 = true then
        ((receiveLoop f events s).1, (receiveLoop f events s).2.1,
         (receiveLoop f events s).2.2.1 ++ extra, true)
      else
        ((receiveLoop f extra (receiveLoop f events s).1).1,
         (receiveLoop f events s).2.1 ++
           (receiveLoop f extra (receiveLoop f events s).1).2.1,
         (receiveLoop f extra (receiveLoop f events s).1).2.2.1,
         (receiveLoop f extra (receiveLoop f events s).1).2.2.2) := by
  induction events generalizing s with
  | nil => simp [receiveLoop]
  | cons e rest ih =>
    cases e with
    | closed => simp [receiveLoop]
    | ctxDone => simp [receiveLoop]
    | value v =>
      rcases hfv : f s v with ⟨s', b⟩
      cases b with
      | false =>
        rw [List.cons_append, receiveLoop_cons_value, receiveLoop_cons_value]
        simp [hfv]
      | true =>
        rw [List.cons_append, receiveLoop_cons_value, receiveLoop_cons_value]
        simp only [hfv]
        rw [ih s']
        by_cases hst : (receiveLoop f rest s').2.2.2 = true <;> simp [hst]

/-- C1 (counterexample): the claim "the output channel of `Drop` has capacity
equal to the capacity of the input channel" fails at the concrete input
channel of capacity 1 with `n = 0`: `drop.go` allocates `min(0, 1) = 0`. -/
theorem drop_cap_ne_input_cap_cex :
    ¬ ((Drop (⟨1, ([] : List Nat)⟩ : Chan Nat) 0).cap =
        (⟨1, ([] : List Nat)⟩ : Chan Nat).cap) := by
  decide

/-- C1 (amended): for every input channel and every count `n`, the output
channel returned by `Drop` has capacity `min n (cap input)`, exactly as
allocated in `drop.go`. -/
theorem drop_cap_eq_min {T : Type} (ch : Chan T) (n : Nat) :
    (Drop ch n).cap = min n ch.cap := rfl

/-- C2: draining `Take n` of a finite input with `ToSlice` yields exactly the
first `n` values of the input (so its length is `min n (length input)`), and
`Take 0` forwards nothing and leaves the whole input trace unread. -/
theorem take_toSlice_spec {T : Type} (xs : List T) (n : Nat) :
    ToSliceRun (TakeRun n xs) = xs.take n ∧
    (ToSliceRun (TakeRun n xs)).length = min n xs.length ∧
    TakeRun 0 xs = [] ∧
    (TakeE 0 (ofList xs)).2 = ofList xs := by
  refine ⟨?_, ?_, ?_, ?_⟩
  · rw [ToSliceRun_eq, TakeRun_eq]
  · rw [ToSliceRun_eq, TakeRun_eq, List.length_take]
  · rw [TakeRun_eq]; simp
  · exact congrArg Prod.snd (TakeE_zero (ofList xs))

/-- C3: `TakeWhile f` forwards the longest `f`-satisfying prefix, consumes
the first falsifying value without forwarding it and reads nothing further;
`DropWhile f` forwards the first falsifying value and everything after it,
evaluating `f` only on the dropped prefix plus that one falsifying value. -/
theorem takeWhile_dropWhile_boundary {T : Type} (f : T → Bool) (xs : List T) :
    TakeWhileRun f xs = xs.takeWhile f ∧
    (TakeWhileE f (ofList xs)).2 =
      (xs.drop ((xs.takeWhile f).length + 1)).map RecvEvent.value ++
        (if (xs.takeWhile f).length < xs.length then [RecvEvent.closed]
         else []) ∧
    DropWhileRun f xs = xs.dropWhile f ∧
    (DropWhileE f (ofList xs)).2 = xs.take ((xs.takeWhile f).length + 1) :=
  ⟨TakeWhileRun_eq f xs, TakeWhileE_left f xs, DropWhileRun_eq f xs,
   DropWhileE_evals f xs⟩

/-- C4: `MapError f` sends the transformed value of every input whose error
is empty to the value stream, in input order, and every non-empty error to
the error stream, in input order; each input contributes to exactly one of
the two streams. -/
theorem mapError_split {T U E : Type} (f : T → U × Option E) (xs : List T) :
    (MapErrorRun f xs).1 =
      (xs.filter (fun v => ((f v).2).isNone)).map (fun v => (f v).1) ∧
    (MapErrorRun f xs).2 = xs.filterMap (fun v => (f v).2) ∧
    (MapErrorRun f xs).1.length + (MapErrorRun f xs).2.length = xs.length := by
  have h := MapErrorRun_eq f xs
  refine ⟨?_, ?_, ?_⟩
  · rw [h]
  · rw [h]
  · rw [h]
    simpa using mapError_length f xs

/-- C5: `Map f` behaves identically to `FilterMap (v ↦ (f v, true))` and
`Filter p` behaves identically to `FilterMap (v ↦ (v, p v))`: equal output
channels (capacity and output sequence) on every input channel. -/
theorem map_filter_filterMap_equiv {T U : Type} (f : T → U) (p : T → Bool)
    (ch : Chan T) :
    Map f ch = FilterMap (fun v => (f v, true)) ch ∧
    Filter p ch = FilterMap (fun v => (v, p v)) ch := by
  refine ⟨rfl, ?_⟩
  simp [Filter, FilterMap, FilterRun_eq, FilterMapRun_eq]

/-- C6: `TakeUntil f` equals `TakeWhile (not ∘ f)` — at the level of whole
event-trace runs, so with identical discard-on-stop behavior — and
`DropUntil f` equals `DropWhile (not ∘ f)`; their outputs are the matching
takeWhile/dropWhile of the negated predicate. -/
theorem takeUntil_dropUntil_equiv {T : Type} (f : T → Bool) (xs : List T)
    (ch : Chan T) :
    TakeUntil f ch = TakeWhile (fun v => !(f v)) ch ∧
    TakeUntilE f (ofList xs) = TakeWhileE (fun v => !(f v)) (ofList xs) ∧
    TakeUntilRun f xs = xs.takeWhile (fun v => !(f v)) ∧
    DropUntil f ch = DropWhile (fun v => !(f v)) ch ∧
    DropUntilRun f xs = xs.dropWhile (fun v => !(f v)) := by
  refine ⟨rfl, rfl, ?_, rfl, ?_⟩
  · exact TakeWhileRun_eq (fun v => !(f v)) xs
  · exact DropWhileRun_eq (fun v => !(f v)) xs

/-- C7: for every input channel and count `n`, the output channel returned by
`Take` has capacity `min n (cap input)`, as allocated in `take.go`. -/
theorem take_cap_eq_min {T : Type} (ch : Chan T) (n : Nat) :
    (Take ch n).cap = min n ch.cap := rfl

/-- C8: every operator preserves the input's relative order: the
value-forwarding operators produce sublists of the input, and each
transforming operator produces the image of a sublist of the input taken in
input order. -/
theorem order_preservation {T U E : Type} (xs : List T) (n : Nat)
    (f : T → Bool) (g : T → U) (fm : T → U × Bool) (me : T → U × Option E)
    (p : T → Bool) :
    List.Sublist (TakeRun n xs) xs ∧
    List.Sublist (DropRun n xs) xs ∧
    List.Sublist (TakeWhileRun f xs) xs ∧
    List.Sublist (TakeUntilRun f xs) xs ∧
    List.Sublist (DropWhileRun f xs) xs ∧
    List.Sublist (DropUntilRun f xs) xs ∧
    List.Sublist (FilterRun p xs) xs ∧
    (∃ ys, List.Sublist ys xs ∧ MapRun g xs = ys.map g) ∧
    (∃ ys, List.Sublist ys xs ∧
      FilterMapRun fm xs = ys.map (fun v => (fm v).1)) ∧
    (∃ ys, List.Sublist ys xs ∧
      (MapErrorRun me xs).1 = ys.map (fun v => (me v).1)) ∧
    (∃ ys, List.Sublist ys xs ∧
      (MapErrorRun me xs).2 = ys.filterMap (fun v => (me v).2)) := by
  refine ⟨?_, ?_, ?_, ?_, ?_, ?_, ?_, ?_, ?_, ?_, ?_⟩
  · rw [TakeRun_eq]; exact List.take_sublist n xs
  · rw [DropRun_eq]; exact List.drop_sublist n xs
  · rw [TakeWhileRun_eq]; exact List.takeWhile_sublist f
  · rw [show TakeUntilRun f xs = xs.takeWhile (fun v => !(f v)) from
      TakeWhileRun_eq _ xs]
    exact List.takeWhile_sublist _
  · rw [DropWhileRun_eq]; exact List.dropWhile_sublist f
  · rw [show DropUntilRun f xs = xs.dropWhile (fun v => !(f v)) from
      DropWhileRun_eq _ xs]
    exact List.dropWhile_sublist _
  · rw [FilterRun_eq]; exact List.filter_sublist xs
  · refine ⟨xs, List.Sublist.refl xs, ?_⟩
    rw [show MapRun g xs = FilterMapRun (fun v => (g v, true)) xs from rfl,
      FilterMapRun_eq]
    simp
  · exact ⟨xs.filter (fun v => (fm v).2), List.filter_sublist xs,
      FilterMapRun_eq fm xs⟩
  · refine ⟨xs.filter (fun v => ((me v).2).isNone), List.filter_sublist xs,
      ?_⟩
    rw [MapErrorRun_eq]
  · refine ⟨xs, List.Sublist.refl xs, ?_⟩
    rw [MapErrorRun_eq]

/-- C10: `receiveLoop` invokes its continuation exactly on the payloads of
the value events in the consumed prefix of the trace — never on a close or a
cancellation outcome — and once a run has stopped (input closed, context
done, or the continuation returned `false`), appending further events changes
nothing: they are never read and the continuation is never invoked again. -/
theorem receiveLoop_safety {T σ : Type} (f : σ → T → σ × Bool)
    (events extra : List (RecvEvent T)) (s : σ) :
    (∃ k, k ≤ events.length ∧
      (receiveLoop f events s).2.2.1 = events.drop k ∧
      (receiveLoop f events s).2.1 =
        (events.take k).filterMap RecvEvent.value?) ∧
    receiveLoop f (events ++ extra) s =
      (if (receiveLoop f events s).2.2.2 = true then
        ((receiveLoop f events s).1, (receiveLoop f events s).2.1,
         (receiveLoop f events s).2.2.1 ++ extra, true)
      else
        ((receiveLoop f extra (receiveLoop f events s).1).1,
         (receiveLoop f events s).2.1 ++
           (receiveLoop f extra (receiveLoop f events s).1).2.1,
         (receiveLoop f extra (receiveLoop f events s).1).2.2.1,
         (receiveLoop f extra (receiveLoop f events s).1).2.2.2)) :=
  ⟨receiveLoop_consumed f events s, receiveLoop_append f events extra s⟩

end Channels
